import Mathlib

/-!
Verification of the yerna monorepo task runner.

This file gives a shallow embedding in Lean 4 of the behaviourally relevant
parts of the program:

* `src/lib/yarn-with-package-json-mangling.js` — manifest mangling/unmangling
  (`alphabetizeKeys`, `manglePackageJson`, `unmanglePackageJson`,
  `runYarnWithPackageJsonMangling`);
* `src/bin/yerna` — package selection (`applyIncludeExclude`,
  `findTransitiveDependentsOrDependencies`,
  `maybeIncludeDependentsAndDependencies`, `getSelectedPackages`) and the
  `optParallel` CLI validator.

JavaScript objects whose values are version strings are embedded as
association lists `List (String × String)` in insertion order (a parsed JSON
object always has pairwise-distinct keys; theorems that depend on this carry
an explicit `Nodup` hypothesis on the key list).  File reads/writes are
elided: each function maps the parsed on-disk manifest value to the value
written back.  Lodash `_.merge` on these flat string-valued objects assigns
every source entry into the destination (updating the value in place when the
key exists, appending otherwise), which is modelled by `objMerge`.  Lodash
`_.sortBy` over strings is observably a stable ascending sort, modelled by a
structural insertion sort over a computable code-point comparator.
-/

/-! ### Strings: computable lexicographic comparison and sorting -/

/-- Computable lexicographic strict comparison of character lists,
mirroring the comparison JavaScript uses when sorting strings. -/
def charListLt : List Char → List Char → Bool
  | [], [] => false
  | [], _ :: _ => true
  | _ :: _, [] => false
  | a :: as, b :: bs => if a < b then true else if b < a then false else charListLt as bs

/-- Computable strict comparison of strings by code points. -/
def strLt (a b : String) : Bool := charListLt a.data b.data

/-- Computable non-strict string comparison (the negation of the converse
strict comparison), used for ascending sorts. -/
def strLe (a b : String) : Bool := !(strLt b a)

theorem charListLt_lex : ∀ x y : List Char, charListLt x y = true ↔ List.Lex (· < ·) x y
  | [], [] => by
    constructor
    · intro h
      exact absurd h (by simp [charListLt])
    · intro h
      cases h
  | [], b :: bs => by
    constructor
    · intro _
      exact List.Lex.nil
    · intro _
      rfl
  | a :: as, [] => by
    constructor
    · intro h
      exact absurd h (by simp [charListLt])
    · intro h
      cases h
  | a :: as, b :: bs => by
    rw [show charListLt (a :: as) (b :: bs) =
        (if a < b then true else if b < a then false else charListLt as bs) from rfl]
    by_cases hab : a < b
    · rw [if_pos hab]
      constructor
      · intro _
        exact List.Lex.rel hab
      · intro _
        rfl
    · rw [if_neg hab]
      by_cases hba : b < a
      · rw [if_pos hba]
        constructor
        · intro h
          simp at h
        · intro h
          cases h with
          | cons h => exact absurd hba (lt_irrefl a)
          | rel h => exact absurd h hab
      · rw [if_neg hba]
        have hae : a = b := le_antisymm (le_of_not_lt hba) (le_of_not_lt hab)
        subst hae
        rw [charListLt_lex as bs]
        constructor
        · intro h
          exact List.Lex.cons h
        · intro h
          cases h with
          | cons h => exact h
          | rel h => exact absurd h hab

theorem strLt_iff (a b : String) : strLt a b = true ↔ a < b := by
  rw [String.lt_iff_toList_lt]
  exact charListLt_lex a.data b.data

theorem strLe_iff (a b : String) : strLe a b = true ↔ a ≤ b := by
  rw [← not_lt, ← strLt_iff b a, strLe]
  cases strLt b a <;> simp

theorem strLe_total (a b : String) : strLe a b || strLe b a := by
  rcases le_total a b with h | h
  · simp [(strLe_iff a b).mpr h]
  · simp [(strLe_iff b a).mpr h]

theorem strLe_trans {a b c : String} (h1 : strLe a b) (h2 : strLe b c) : strLe a c := by
  rw [strLe_iff] at h1 h2 ⊢
  exact le_trans h1 h2

/-- Insert an element into an ascending list, before the first element it
compares `le` to; this is the insertion step of a stable insertion sort. -/
def insertAsc (le : α → α → Bool) (a : α) : List α → List α
  | [] => [a]
  | b :: t => if le a b then a :: b :: t else b :: insertAsc le a t

/-- Stable ascending insertion sort; the observable behaviour of lodash
`_.sortBy` over strings. -/
def sortAsc (le : α → α → Bool) : List α → List α
  | [] => []
  | a :: t => insertAsc le a (sortAsc le t)

theorem insertAsc_perm (le : α → α → Bool) (a : α) (l : List α) :
    List.Perm (insertAsc le a l) (a :: l) := by
  induction l with
  | nil => exact List.Perm.refl _
  | cons b t ih =>
    rw [insertAsc]
    by_cases h : le a b = true
    · simp [h]
    · simp only [h, if_false]
      exact (List.Perm.cons b ih).trans (List.Perm.swap a b t)

theorem sortAsc_perm (le : α → α → Bool) (l : List α) : List.Perm (sortAsc le l) l := by
  induction l with
  | nil => exact List.Perm.refl _
  | cons a t ih =>
    rw [sortAsc]
    exact (insertAsc_perm le a (sortAsc le t)).trans (List.Perm.cons a ih)

theorem mem_sortAsc (le : α → α → Bool) (l : List α) (x : α) :
    x ∈ sortAsc le l ↔ x ∈ l :=
  (sortAsc_perm le l).mem_iff

theorem insertAsc_pairwise (le : α → α → Bool)
    (htrans : ∀ x y z, le x y = true → le y z = true → le x z = true)
    (htotal : ∀ x y, le x y || le y x)
    (a : α) (l : List α) (hl : l.Pairwise (fun x y => le x y = true)) :
    (insertAsc le a l).Pairwise (fun x y => le x y = true) := by
  induction l with
  | nil => simp [insertAsc]
  | cons b t ih =>
    rw [insertAsc]
    rcases List.pairwise_cons.mp hl with ⟨hbt, htp⟩
    by_cases h : le a b = true
    · simp only [h, if_true]
      refine List.pairwise_cons.mpr ⟨?_, hl⟩
      intro x hx
      rcases List.mem_cons.mp hx with rfl | hx
      · exact h
      · exact htrans a b x h (hbt x hx)
    · simp only [h, if_false]
      have hba : le b a = true := by
        rcases Bool.or_eq_true_iff.mp (htotal a b) with h' | h'
        · exact absurd h' h
        · exact h'
      refine List.pairwise_cons.mpr ⟨?_, ih htp⟩
      intro x hx
      rcases List.mem_cons.mp ((insertAsc_perm le a t).mem_iff.mp hx) with rfl | h'
      · exact hba
      · exact hbt x h'

theorem sortAsc_pairwise (le : α → α → Bool)
    (htrans : ∀ x y z, le x y = true → le y z = true → le x z = true)
    (htotal : ∀ x y, le x y || le y x)
    (l : List α) : (sortAsc le l).Pairwise (fun x y => le x y = true) := by
  induction l with
  | nil => simp [sortAsc]
  | cons a t ih =>
    rw [sortAsc]
    exact insertAsc_pairwise le htrans htotal a (sortAsc le t) ih

/-! ### JavaScript object model: association lists of string keys and values -/

/-- A parsed JSON object with string values, in insertion order of its keys. -/
abbrev Assoc := List (String × String)

/-- Reading `object[k]`: the value at the first entry with key `k`. -/
def lookupV (k : String) (l : Assoc) : Option String :=
  (l.find? (fun e => e.1 == k)).map (fun e => e.2)

/-- Assignment `object[k] = v`: update the value in place when the key is
present, append the entry otherwise. -/
def objSet (l : Assoc) (k v : String) : Assoc :=
  if l.any (fun e => e.1 == k) then
    l.map (fun e => if e.1 == k then (k, v) else e)
  else
    l ++ [(k, v)]

/-- The statement form of JavaScript property removal on an object with
unique keys: every entry with the removed key disappears. -/
def objDelete (l : Assoc) (k : String) : Assoc :=
  l.filter (fun e => e.1 != k)

/-- Lodash `_.merge(dst, src)` restricted to flat string-valued objects:
assign every entry of the source into the destination, so a key present in
both ends up with the source's value. -/
def objMerge (dst src : Assoc) : Assoc :=
  src.foldl (fun acc e => objSet acc e.1 e.2) dst

/-! ### The manifest data model and the mangling functions -/

/-- A package manifest as parsed from `package.json`: the two dependency
fields the mangler touches, plus all remaining top-level fields, which it
never touches. -/
structure Manifest where
  dependencies : Option Assoc
  devDependencies : Option Assoc
  otherFields : Assoc
deriving DecidableEq

/-- The value returned by `manglePackageJson`: for each dependency field
present in the manifest, the entries removed from it. -/
structure MangleRecord where
  dependencies : Option Assoc
  devDependencies : Option Assoc
deriving DecidableEq

/-- Embedding of `alphabetizeKeys` (yarn-with-package-json-mangling.js,
lines 8-16): take the object's keys, sort them ascending, and build a new
object by assigning `object[k]` for each sorted key in turn. -/
def alphabetizeKeys (l : Assoc) : Assoc :=
  (sortAsc strLe (l.map Prod.fst)).foldl
    (fun acc k =>
      match lookupV k l with
      | some v => objSet acc k v
      | none => acc) []

/-- One dependency field of `manglePackageJson` (lines 22-32): when the field
is present, iterate over a snapshot of its entries, deleting each entry whose
key is an excluded package name and recording it in the removed-object for
that field (which exists, possibly empty, whenever the field does). -/
def mangleField (excluded : String → Bool) : Option Assoc → Option Assoc × Option Assoc
  | none => (none, none)
  | some l =>
    let st := l.foldl
      (fun (st : Assoc × Assoc) e =>
        if excluded e.1 then (objDelete st.1 e.1, objSet st.2 e.1 e.2) else st)
      (l, ([] : Assoc))
    (some st.1, some st.2)

/-- Embedding of `manglePackageJson` (lines 18-36): remove from
`dependencies` and `devDependencies` every entry whose key is an excluded
(monorepo-local) package name, write the mutated manifest back, and return
the record of removed entries. -/
def manglePackageJson (m : Manifest) (excluded : String → Bool) :
    Manifest × MangleRecord :=
  let d := mangleField excluded m.dependencies
  let v := mangleField excluded m.devDependencies
  ({ m with dependencies := d.1, devDependencies := v.1 },
   { dependencies := d.2, devDependencies := v.2 })

/-- One field of the `_.merge(unmangledPackageJson, mangleToken)` step of
`unmanglePackageJson` (line 41): a field absent from the record leaves the
manifest untouched; a field present in the record is object-merged into the
(possibly absent, hence empty) manifest field. -/
def mergeField (dst src : Option Assoc) : Option Assoc :=
  match src with
  | none => dst
  | some r => some (objMerge (dst.getD []) r)

/-- The whole `_.merge` step of `unmanglePackageJson`: the record only ever
holds the two dependency fields, so only those are merged. -/
def mergeRecord (m : Manifest) (t : MangleRecord) : Manifest :=
  { m with
    dependencies := mergeField m.dependencies t.dependencies,
    devDependencies := mergeField m.devDependencies t.devDependencies }

/-- Embedding of `unmanglePackageJson` (lines 38-48): read the current
on-disk manifest, `_.merge` the mangle record into it, then alphabetize each
dependency field that is present and write the result back. -/
def unmanglePackageJson (m : Manifest) (t : MangleRecord) : Manifest :=
  let u := mergeRecord m t
  { u with
    dependencies := u.dependencies.map alphabetizeKeys,
    devDependencies := u.devDependencies.map alphabetizeKeys }

/-! ### Lemmas about the object operations -/

theorem not_mem_keys_of_any_eq_false {l : Assoc} {k : String}
    (h : l.any (fun e => e.1 == k) = false) : k ∉ l.map Prod.fst := by
  simp only [List.any_eq_false] at h
  intro hk
  rcases List.mem_map.mp hk with ⟨e, he, rfl⟩
  simpa using h e he

theorem any_eq_false_of_not_mem_keys {l : Assoc} {k : String}
    (h : k ∉ l.map Prod.fst) : l.any (fun e => e.1 == k) = false := by
  rw [List.any_eq_false]
  intro e he
  simp only [beq_iff_eq]
  intro hek
  exact h (List.mem_map.mpr ⟨e, he, hek⟩)

theorem objSet_of_not_mem {l : Assoc} {k : String} (v : String)
    (h : k ∉ l.map Prod.fst) : objSet l k v = l ++ [(k, v)] := by
  rw [objSet, if_neg]
  simp [any_eq_false_of_not_mem_keys h]

theorem lookupV_cons_self {k : String} {e : String × String} (t : Assoc) (h : e.1 = k) :
    lookupV k (e :: t) = some e.2 := by
  simp [lookupV, List.find?_cons, h]

theorem lookupV_cons_ne {k : String} {e : String × String} (t : Assoc) (h : e.1 ≠ k) :
    lookupV k (e :: t) = lookupV k t := by
  simp [lookupV, List.find?_cons, h]

theorem lookupV_append (k : String) (l₁ l₂ : Assoc) :
    lookupV k (l₁ ++ l₂) = (lookupV k l₁).or (lookupV k l₂) := by
  rw [lookupV, lookupV, lookupV, List.find?_append]
  cases h : l₁.find? (fun e => e.1 == k) <;> simp

theorem lookupV_eq_none_of_not_mem {l : Assoc} {k : String}
    (h : k ∉ l.map Prod.fst) : lookupV k l = none := by
  rw [lookupV, List.find?_eq_none.mpr]
  · rfl
  · intro e he
    simp only [beq_iff_eq]
    intro hek
    exact h (List.mem_map.mpr ⟨e, he, hek⟩)

theorem lookupV_isSome_of_mem {l : Assoc} {k : String}
    (h : k ∈ l.map Prod.fst) : (lookupV k l).isSome := by
  rcases List.mem_map.mp h with ⟨e, he, rfl⟩
  induction l with
  | nil => cases he
  | cons x t ih =>
    rcases List.mem_cons.mp he with heq | ht
    · rw [← heq, @lookupV_cons_self e.1 e t rfl]
      rfl
    · by_cases hx : x.1 = e.1
      · rw [lookupV_cons_self t hx]
        rfl
      · rw [lookupV_cons_ne t hx]
        exact ih ht (List.mem_map.mpr ⟨e, ht, rfl⟩)

theorem lookupV_map_update_self (l : Assoc) (k v : String)
    (h : l.any (fun e => e.1 == k) = true) :
    lookupV k (l.map (fun e => if e.1 == k then (k, v) else e)) = some v := by
  induction l with
  | nil => simp at h
  | cons e t ih =>
    rw [List.map_cons]
    by_cases he : e.1 = k
    · rw [if_pos (by simp [he])]
      exact lookupV_cons_self _ rfl
    · rw [if_neg (by simp [he]), lookupV_cons_ne _ he]
      apply ih
      simp only [List.any_cons] at h
      rcases Bool.or_eq_true_iff.mp h with h' | h'
      · exact absurd (by simpa using h') he
      · exact h'

theorem lookupV_map_update_ne (l : Assoc) {k k' : String} (v : String) (h : k' ≠ k) :
    lookupV k' (l.map (fun e => if e.1 == k then (k, v) else e)) = lookupV k' l := by
  induction l with
  | nil => rfl
  | cons e t ih =>
    rw [List.map_cons]
    by_cases he : e.1 = k
    · rw [if_pos (by simp [he])]
      rw [lookupV_cons_ne _ (show ((k, v) : String × String).1 ≠ k' from fun hk => h hk.symm)]
      rw [lookupV_cons_ne _ (show e.1 ≠ k' from by rw [he]; exact fun hk => h hk.symm)]
      exact ih
    · rw [if_neg (by simp [he])]
      by_cases h1 : e.1 = k'
      · rw [lookupV_cons_self _ h1, lookupV_cons_self _ h1]
      · rw [lookupV_cons_ne _ h1, lookupV_cons_ne _ h1]
        exact ih

theorem lookupV_objSet_self (l : Assoc) (k v : String) :
    lookupV k (objSet l k v) = some v := by
  rw [objSet]
  by_cases hany : l.any (fun e => e.1 == k) = true
  · rw [if_pos hany]
    exact lookupV_map_update_self l k v hany
  · rw [if_neg hany]
    simp only [Bool.not_eq_true] at hany
    rw [lookupV_append, lookupV_eq_none_of_not_mem (not_mem_keys_of_any_eq_false hany),
      @lookupV_cons_self k (k, v) [] rfl]
    rfl

theorem lookupV_objSet_ne (l : Assoc) {k k' : String} (v : String) (h : k' ≠ k) :
    lookupV k' (objSet l k v) = lookupV k' l := by
  rw [objSet]
  by_cases hany : l.any (fun e => e.1 == k) = true
  · rw [if_pos hany]
    exact lookupV_map_update_ne l v h
  · rw [if_neg hany, lookupV_append]
    rw [lookupV_cons_ne _ (show ((k, v) : String × String).1 ≠ k' from fun hk => h hk.symm)]
    show (lookupV k' l).or (lookupV k' []) = lookupV k' l
    cases lookupV k' l <;> rfl

theorem keys_map_update (l : Assoc) (k v : String) :
    (l.map (fun e => if e.1 == k then (k, v) else e)).map Prod.fst = l.map Prod.fst := by
  rw [List.map_map]
  apply List.map_congr_left
  intro e _
  by_cases hek : e.1 = k
  · simp [hek]
  · simp [hek]

theorem keys_objSet_nodup {l : Assoc} (k v : String) (h : (l.map Prod.fst).Nodup) :
    ((objSet l k v).map Prod.fst).Nodup := by
  rw [objSet]
  by_cases hany : l.any (fun e => e.1 == k) = true
  · rw [if_pos hany, keys_map_update]
    exact h
  · rw [if_neg hany, List.map_append]
    simp only [Bool.not_eq_true] at hany
    have hk := not_mem_keys_of_any_eq_false hany
    simp [List.nodup_append, h, hk]

theorem keys_objMerge_nodup {d : Assoc} (r : Assoc) (h : (d.map Prod.fst).Nodup) :
    ((objMerge d r).map Prod.fst).Nodup := by
  induction r generalizing d with
  | nil => exact h
  | cons e rest ih =>
    rw [show objMerge d (e :: rest) = objMerge (objSet d e.1 e.2) rest from rfl]
    exact ih (keys_objSet_nodup e.1 e.2 h)

theorem lookupV_objMerge (d : Assoc) {r : Assoc} (hr : (r.map Prod.fst).Nodup) (k : String) :
    lookupV k (objMerge d r) = (lookupV k r).or (lookupV k d) := by
  induction r generalizing d with
  | nil => rfl
  | cons e rest ih =>
    rw [show objMerge d (e :: rest) = objMerge (objSet d e.1 e.2) rest from rfl]
    rw [List.map_cons] at hr
    rcases List.nodup_cons.mp hr with ⟨hnm, hnd⟩
    rw [ih (objSet d e.1 e.2) hnd]
    by_cases hk : k = e.1
    · subst hk
      rw [lookupV_eq_none_of_not_mem hnm, lookupV_objSet_self, @lookupV_cons_self e.1 e rest rfl]
      rfl
    · rw [lookupV_objSet_ne d e.2 hk, lookupV_cons_ne rest (fun h' => hk h'.symm)]

/-! ### Lemmas about alphabetizeKeys -/

theorem alphaFoldl (l : Assoc) (ks : List String) : ∀ (acc : Assoc), ks.Nodup →
    (∀ j ∈ ks, j ∉ acc.map Prod.fst) →
    ks.foldl (fun acc k =>
        match lookupV k l with
        | some v => objSet acc k v
        | none => acc) acc
      = acc ++ ks.filterMap (fun k => (lookupV k l).map (fun v => (k, v))) := by
  induction ks with
  | nil =>
    intro acc _ _
    simp
  | cons k rest ih =>
    intro acc hnd hdisj
    rcases List.nodup_cons.mp hnd with ⟨hkr, hrest⟩
    rw [List.foldl_cons, List.filterMap_cons]
    cases hlk : lookupV k l with
    | none =>
      simp only [hlk, Option.map_none']
      exact ih acc hrest (fun j hj => hdisj j (List.mem_cons_of_mem _ hj))
    | some v =>
      simp only [hlk, Option.map_some']
      rw [objSet_of_not_mem v (hdisj k (List.mem_cons_self _ _))]
      rw [ih (acc ++ [(k, v)]) hrest ?_]
      · rw [List.append_assoc]
        rfl
      · intro j hj
        rw [List.map_append, List.mem_append]
        rintro (hja | hjk)
        · exact hdisj j (List.mem_cons_of_mem _ hj) hja
        · simp only [List.map_cons, List.map_nil, List.mem_singleton] at hjk
          exact hkr (hjk ▸ hj)

theorem alphabetizeKeys_eq {l : Assoc} (h : (l.map Prod.fst).Nodup) :
    alphabetizeKeys l = (sortAsc strLe (l.map Prod.fst)).filterMap
      (fun k => (lookupV k l).map (fun v => (k, v))) := by
  rw [alphabetizeKeys]
  rw [alphaFoldl l _ [] ((sortAsc_perm strLe _).nodup_iff.mpr h) (by simp)]
  rfl

theorem keys_filterMap_lookup (l : Assoc) (ks : List String)
    (h : ∀ k ∈ ks, k ∈ l.map Prod.fst) :
    (ks.filterMap (fun k => (lookupV k l).map (fun v => (k, v)))).map Prod.fst = ks := by
  induction ks with
  | nil => rfl
  | cons k rest ih =>
    rw [List.filterMap_cons]
    cases hlk : lookupV k l with
    | none =>
      exfalso
      have hs := lookupV_isSome_of_mem (h k (List.mem_cons_self _ _))
      rw [hlk] at hs
      simp at hs
    | some v =>
      simp only [Option.map_some']
      rw [List.map_cons, ih (fun j hj => h j (List.mem_cons_of_mem _ hj))]

theorem keys_alphabetizeKeys {l : Assoc} (h : (l.map Prod.fst).Nodup) :
    (alphabetizeKeys l).map Prod.fst = sortAsc strLe (l.map Prod.fst) := by
  rw [alphabetizeKeys_eq h]
  exact keys_filterMap_lookup l _ (fun k hk => (mem_sortAsc _ _ k).mp hk)

theorem sorted_keys_alphabetizeKeys {l : Assoc} (h : (l.map Prod.fst).Nodup) :
    List.Sorted (· ≤ ·) ((alphabetizeKeys l).map Prod.fst) := by
  rw [keys_alphabetizeKeys h]
  have hp := sortAsc_pairwise strLe (fun x y z h1 h2 => strLe_trans h1 h2) strLe_total
    (l.map Prod.fst)
  exact hp.imp (fun hxy => (strLe_iff _ _).mp hxy)

theorem lookupV_filterMap_lookup (l : Assoc) (ks : List String) (k : String) :
    lookupV k (ks.filterMap (fun j => (lookupV j l).map (fun v => (j, v))))
      = if k ∈ ks then lookupV k l else none := by
  induction ks with
  | nil => simp [lookupV]
  | cons j rest ih =>
    rw [List.filterMap_cons]
    cases hlj : lookupV j l with
    | none =>
      simp only [Option.map_none']
      rw [ih]
      by_cases hkj : k = j
      · subst hkj
        by_cases hkr : k ∈ rest <;> simp [hkr, hlj]
      · simp [List.mem_cons, hkj]
    | some v =>
      simp only [Option.map_some']
      by_cases hkj : k = j
      · subst hkj
        rw [@lookupV_cons_self k (k, v) _ rfl]
        simp [hlj]
      · rw [lookupV_cons_ne _ (show ((j, v) : String × String).1 ≠ k from fun h' => hkj h'.symm)]
        rw [ih]
        simp [List.mem_cons, hkj]

theorem lookupV_alphabetizeKeys {l : Assoc} (h : (l.map Prod.fst).Nodup) (k : String) :
    lookupV k (alphabetizeKeys l) = lookupV k l := by
  rw [alphabetizeKeys_eq h, lookupV_filterMap_lookup]
  by_cases hk : k ∈ sortAsc strLe (l.map Prod.fst)
  · simp [hk]
  · rw [if_neg hk]
    rw [mem_sortAsc] at hk
    exact (lookupV_eq_none_of_not_mem hk).symm

/-! ### Lemmas about manglePackageJson -/

theorem mangleFoldl_fst (ex : String → Bool) (l : Assoc) : ∀ (o r : Assoc),
    (l.foldl (fun (st : Assoc × Assoc) e =>
        if ex e.1 then (objDelete st.1 e.1, objSet st.2 e.1 e.2) else st) (o, r)).1
      = l.foldl (fun o e => if ex e.1 then objDelete o e.1 else o) o := by
  induction l with
  | nil =>
    intro o r
    rfl
  | cons e rest ih =>
    intro o r
    rw [List.foldl_cons, List.foldl_cons]
    by_cases he : ex e.1 = true
    · rw [if_pos he, if_pos he]
      exact ih _ _
    · rw [if_neg he, if_neg he]
      exact ih _ _

theorem mangleFoldl_snd (ex : String → Bool) (l : Assoc) : ∀ (o r : Assoc),
    (l.foldl (fun (st : Assoc × Assoc) e =>
        if ex e.1 then (objDelete st.1 e.1, objSet st.2 e.1 e.2) else st) (o, r)).2
      = l.foldl (fun r e => if ex e.1 then objSet r e.1 e.2 else r) r := by
  induction l with
  | nil =>
    intro o r
    rfl
  | cons e rest ih =>
    intro o r
    rw [List.foldl_cons, List.foldl_cons]
    by_cases he : ex e.1 = true
    · rw [if_pos he, if_pos he]
      exact ih _ _
    · rw [if_neg he, if_neg he]
      exact ih _ _

theorem deleteFoldl (ex : String → Bool) (todo : Assoc) : ∀ (o : Assoc),
    todo.foldl (fun o e => if ex e.1 then objDelete o e.1 else o) o
      = o.filter (fun p => !(ex p.1 && decide (p.1 ∈ todo.map Prod.fst))) := by
  induction todo with
  | nil =>
    intro o
    simp
  | cons e rest ih =>
    intro o
    rw [List.foldl_cons]
    by_cases he : ex e.1 = true
    · rw [if_pos he, ih, objDelete, List.filter_filter]
      apply List.filter_congr
      intro p _
      by_cases hpe : p.1 = e.1
      · simp [hpe, he]
      · have hb : (p.1 == e.1) = false := by simp [hpe]
        simp [List.mem_cons, hpe, hb, bne]
    · rw [if_neg he, ih]
      apply List.filter_congr
      intro p _
      by_cases hpe : p.1 = e.1
      · simp only [Bool.not_eq_true] at he
        simp [hpe, he, List.mem_cons]
      · have hb : (p.1 == e.1) = false := by simp [hpe]
        simp [List.mem_cons, hpe, hb, bne]

theorem setFoldl (ex : String → Bool) (todo : Assoc) : ∀ (r : Assoc),
    (todo.map Prod.fst).Nodup →
    (∀ e ∈ todo, e.1 ∉ r.map Prod.fst) →
    todo.foldl (fun r e => if ex e.1 then objSet r e.1 e.2 else r) r
      = r ++ todo.filter (fun e => ex e.1) := by
  induction todo with
  | nil =>
    intro r _ _
    simp
  | cons e rest ih =>
    intro r hnd hdisj
    rw [List.map_cons] at hnd
    rcases List.nodup_cons.mp hnd with ⟨het, hrest⟩
    rw [List.foldl_cons, List.filter_cons]
    by_cases he : ex e.1 = true
    · rw [if_pos he]
      simp only [he, if_true]
      rw [objSet_of_not_mem e.2 (hdisj e (List.mem_cons_self _ _))]
      rw [ih (r ++ [(e.1, e.2)]) hrest ?_]
      · rw [List.append_assoc]
        rfl
      · intro x hx
        rw [List.map_append, List.mem_append]
        rintro (hxa | hxe)
        · exact hdisj x (List.mem_cons_of_mem _ hx) hxa
        · simp only [List.map_cons, List.map_nil, List.mem_singleton] at hxe
          exact het (hxe ▸ List.mem_map.mpr ⟨x, hx, rfl⟩)
    · rw [if_neg he]
      simp only [he, Bool.false_eq_true, if_false]
      exact ih r hrest (fun x hx => hdisj x (List.mem_cons_of_mem _ hx))

theorem mangleField_none (ex : String → Bool) : mangleField ex none = (none, none) := rfl

theorem mangleField_some_fst (ex : String → Bool) (l : Assoc) :
    (mangleField ex (some l)).1 = some (l.filter (fun p => !(ex p.1))) := by
  simp only [mangleField]
  rw [mangleFoldl_fst, deleteFoldl]
  congr 1
  apply List.filter_congr
  intro p hp
  have hm : p.1 ∈ l.map Prod.fst := List.mem_map.mpr ⟨p, hp, rfl⟩
  simp [hm]

theorem mangleField_some_snd (ex : String → Bool) (l : Assoc)
    (h : (l.map Prod.fst).Nodup) :
    (mangleField ex (some l)).2 = some (l.filter (fun e => ex e.1)) := by
  simp only [mangleField]
  rw [mangleFoldl_snd, setFoldl ex l [] h (by simp)]
  rfl

/-! ### Lemmas about mergeField and the alphabetized fields of unmangle -/

theorem mergeField_keys_nodup {d : Option Assoc} (s : Option Assoc)
    (h : ((d.getD []).map Prod.fst).Nodup) :
    (((mergeField d s).getD []).map Prod.fst).Nodup := by
  cases s with
  | none => exact h
  | some r => exact keys_objMerge_nodup r h

theorem mergeField_lookup {d s : Option Assoc}
    (hs : ((s.getD []).map Prod.fst).Nodup) (k : String) :
    lookupV k ((mergeField d s).getD [])
      = (lookupV k (s.getD [])).or (lookupV k (d.getD [])) := by
  cases s with
  | none => rfl
  | some r => exact lookupV_objMerge (d.getD []) hs k

theorem alphaField_sorted {o : Option Assoc} (h : ((o.getD []).map Prod.fst).Nodup) :
    List.Sorted (· ≤ ·) (((o.map alphabetizeKeys).getD []).map Prod.fst) := by
  cases o with
  | none => simp
  | some l => exact sorted_keys_alphabetizeKeys h

theorem alphaField_lookup {o : Option Assoc} (h : ((o.getD []).map Prod.fst).Nodup)
    (k : String) :
    lookupV k ((o.map alphabetizeKeys).getD []) = lookupV k (o.getD []) := by
  cases o with
  | none => rfl
  | some l => exact lookupV_alphabetizeKeys h k

theorem mangleField_fst_eq (ex : String → Bool) (o : Option Assoc) :
    (mangleField ex o).1 = o.map (fun l => l.filter (fun p => !(ex p.1))) := by
  cases o with
  | none => rfl
  | some l =>
    rw [mangleField_some_fst]
    rfl

theorem mangleField_snd_eq (ex : String → Bool) (o : Option Assoc)
    (h : ((o.getD []).map Prod.fst).Nodup) :
    (mangleField ex o).2 = o.map (fun l => l.filter (fun e => ex e.1)) := by
  cases o with
  | none => rfl
  | some l =>
    rw [mangleField_some_snd ex l h]
    rfl

/-! ### Claims about the manifest mutation guard -/

/-- C1, counterexample. The claim says that when the on-disk manifest already
contains a value for a key that is also in the mangle record, `unmangle`
preserves the on-disk value.  It does not: with `"@org/b" : "3.0.0"` on disk
and `"@org/b" : "2.0.0"` in the record, the written manifest carries the
record's `"2.0.0"`, because lodash merge assigns source values over
destination values. -/
theorem c1_counterexample_disk_value_overwritten :
    ¬ (lookupV "@org/b" ((unmanglePackageJson ⟨some [("@org/b", "3.0.0")], none, []⟩
        ⟨some [("@org/b", "2.0.0")], none⟩).dependencies.getD []) = some "3.0.0")
    ∧ lookupV "@org/b" ((unmanglePackageJson ⟨some [("@org/b", "3.0.0")], none, []⟩
        ⟨some [("@org/b", "2.0.0")], none⟩).dependencies.getD []) = some "2.0.0" := by
  decide

/-- C1, amended. For every key of a dependency field, the value written by
`unmangle` is the record's value when the key is present in the record
(the record overwrites whatever the external command left on disk), and the
on-disk value otherwise: the lookup in the result is the lookup in the
record's field orElse the lookup in the on-disk field. -/
theorem c1_amended_record_takes_precedence (m : Manifest) (t : MangleRecord)
    (hm1 : ((m.dependencies.getD []).map Prod.fst).Nodup)
    (hm2 : ((m.devDependencies.getD []).map Prod.fst).Nodup)
    (ht1 : ((t.dependencies.getD []).map Prod.fst).Nodup)
    (ht2 : ((t.devDependencies.getD []).map Prod.fst).Nodup) :
    (∀ k, lookupV k ((unmanglePackageJson m t).dependencies.getD [])
        = (lookupV k (t.dependencies.getD [])).or (lookupV k (m.dependencies.getD []))) ∧
    (∀ k, lookupV k ((unmanglePackageJson m t).devDependencies.getD [])
        = (lookupV k (t.devDependencies.getD [])).or
            (lookupV k (m.devDependencies.getD []))) := by
  constructor
  · intro k
    have h1 : (unmanglePackageJson m t).dependencies
        = (mergeField m.dependencies t.dependencies).map alphabetizeKeys := rfl
    rw [h1, alphaField_lookup (mergeField_keys_nodup t.dependencies hm1) k,
      mergeField_lookup ht1 k]
  · intro k
    have h1 : (unmanglePackageJson m t).devDependencies
        = (mergeField m.devDependencies t.devDependencies).map alphabetizeKeys := rfl
    rw [h1, alphaField_lookup (mergeField_keys_nodup t.devDependencies hm2) k,
      mergeField_lookup ht2 k]

theorem c1_amended_witness :
    lookupV "@org/b" ((unmanglePackageJson ⟨some [("@org/b", "3.0.0")], none, []⟩
        ⟨some [("@org/b", "2.0.0")], none⟩).dependencies.getD [])
      = (lookupV "@org/b" ((some [("@org/b", "2.0.0")] : Option Assoc).getD [])).or
          (lookupV "@org/b" ((some [("@org/b", "3.0.0")] : Option Assoc).getD [])) :=
  (c1_amended_record_takes_precedence ⟨some [("@org/b", "3.0.0")], none, []⟩
    ⟨some [("@org/b", "2.0.0")], none⟩ (by decide) (by decide) (by decide) (by decide)).1 "@org/b"

/-- C2: the concrete mangle/unmangle round trip of the spec.  Mangling the
manifest whose dependencies are left-pad 1.0.0 and the monorepo-local
package at org slash b 2.0.0 writes only the left-pad entry and records the
removed entry; unmangling the mangled manifest with that record restores
both entries with the keys in ascending order. -/
theorem c2_mangle_unmangle_round_trip :
    manglePackageJson ⟨some [("left-pad", "1.0.0"), ("@org/b", "2.0.0")], none, []⟩
        (fun n => n == "@org/b")
      = (⟨some [("left-pad", "1.0.0")], none, []⟩, ⟨some [("@org/b", "2.0.0")], none⟩) ∧
    unmanglePackageJson
        (manglePackageJson ⟨some [("left-pad", "1.0.0"), ("@org/b", "2.0.0")], none, []⟩
          (fun n => n == "@org/b")).1
        (manglePackageJson ⟨some [("left-pad", "1.0.0"), ("@org/b", "2.0.0")], none, []⟩
          (fun n => n == "@org/b")).2
      = ⟨some [("@org/b", "2.0.0"), ("left-pad", "1.0.0")], none, []⟩ := by
  constructor
  · decide
  · decide

/-- C3: for every manifest and excluded-name set, `mangle` keeps in each
dependency field exactly the entries whose key is not excluded (in their
original order), returns as record exactly the removed entries (keyed by the
field they came from, mapping each name to its original version string), and
leaves every other manifest field unchanged. -/
theorem c3_mangle_removes_exactly_excluded (m : Manifest) (ex : String → Bool)
    (h1 : ((m.dependencies.getD []).map Prod.fst).Nodup)
    (h2 : ((m.devDependencies.getD []).map Prod.fst).Nodup) :
    (manglePackageJson m ex).1.dependencies
        = m.dependencies.map (fun l => l.filter (fun p => !(ex p.1))) ∧
    (manglePackageJson m ex).1.devDependencies
        = m.devDependencies.map (fun l => l.filter (fun p => !(ex p.1))) ∧
    (manglePackageJson m ex).1.otherFields = m.otherFields ∧
    (manglePackageJson m ex).2.dependencies
        = m.dependencies.map (fun l => l.filter (fun e => ex e.1)) ∧
    (manglePackageJson m ex).2.devDependencies
        = m.devDependencies.map (fun l => l.filter (fun e => ex e.1)) :=
  ⟨mangleField_fst_eq ex m.dependencies,
   mangleField_fst_eq ex m.devDependencies,
   rfl,
   mangleField_snd_eq ex m.dependencies h1,
   mangleField_snd_eq ex m.devDependencies h2⟩

theorem c3_witness :
    (manglePackageJson ⟨some [("a", "1"), ("b", "2")], some [("c", "3")], [("name", "pkg")]⟩
        (fun n => n == "b")).1.dependencies
      = (some [("a", "1"), ("b", "2")] : Option Assoc).map
          (fun l => l.filter (fun p => !((fun n => n == "b") p.1))) :=
  (c3_mangle_removes_exactly_excluded
    ⟨some [("a", "1"), ("b", "2")], some [("c", "3")], [("name", "pkg")]⟩
    (fun n => n == "b") (by decide) (by decide)).1

/-- C7: for every on-disk manifest and mangle record (including the empty
record), each dependency field present in the manifest written by `unmangle`
has its keys in ascending lexicographic order, with the value at every key
unchanged from the merged manifest, and a field is present in the output iff
it is present after the merge.  The alphabetization is applied whether or not
any entry was mangled or restored. -/
theorem c7_unmangle_alphabetizes (m : Manifest) (t : MangleRecord)
    (h1 : ((m.dependencies.getD []).map Prod.fst).Nodup)
    (h2 : ((m.devDependencies.getD []).map Prod.fst).Nodup) :
    List.Sorted (· ≤ ·) (((unmanglePackageJson m t).dependencies.getD []).map Prod.fst) ∧
    List.Sorted (· ≤ ·) (((unmanglePackageJson m t).devDependencies.getD []).map Prod.fst) ∧
    (∀ k, lookupV k ((unmanglePackageJson m t).dependencies.getD [])
        = lookupV k ((mergeRecord m t).dependencies.getD [])) ∧
    (∀ k, lookupV k ((unmanglePackageJson m t).devDependencies.getD [])
        = lookupV k ((mergeRecord m t).devDependencies.getD [])) ∧
    (unmanglePackageJson m t).dependencies.isSome
        = (mergeRecord m t).dependencies.isSome ∧
    (unmanglePackageJson m t).devDependencies.isSome
        = (mergeRecord m t).devDependencies.isSome := by
  have e1 : (unmanglePackageJson m t).dependencies
      = (mergeField m.dependencies t.dependencies).map alphabetizeKeys := rfl
  have e2 : (unmanglePackageJson m t).devDependencies
      = (mergeField m.devDependencies t.devDependencies).map alphabetizeKeys := rfl
  refine ⟨?_, ?_, ?_, ?_, ?_, ?_⟩
  · rw [e1]
    exact alphaField_sorted (mergeField_keys_nodup t.dependencies h1)
  · rw [e2]
    exact alphaField_sorted (mergeField_keys_nodup t.devDependencies h2)
  · intro k
    rw [e1]
    exact alphaField_lookup (mergeField_keys_nodup t.dependencies h1) k
  · intro k
    rw [e2]
    exact alphaField_lookup (mergeField_keys_nodup t.devDependencies h2) k
  · rw [e1]
    show (Option.map alphabetizeKeys (mergeField m.dependencies t.dependencies)).isSome
        = (mergeField m.dependencies t.dependencies).isSome
    cases mergeField m.dependencies t.dependencies <;> rfl
  · rw [e2]
    show (Option.map alphabetizeKeys (mergeField m.devDependencies t.devDependencies)).isSome
        = (mergeField m.devDependencies t.devDependencies).isSome
    cases mergeField m.devDependencies t.devDependencies <;> rfl

theorem c7_witness :
    List.Sorted (· ≤ ·) (((unmanglePackageJson ⟨some [("b", "1"), ("a", "2")], none, []⟩
        ⟨none, none⟩).dependencies.getD []).map Prod.fst) :=
  (c7_unmangle_alphabetizes ⟨some [("b", "1"), ("a", "2")], none, []⟩ ⟨none, none⟩
    (by decide) (by decide)).1

/-! ### The process lifecycle of runYarnWithPackageJsonMangling -/

/-- The reason a child process's exit event fires: an exit status (zero or
not), or termination by a signal. -/
inductive ExitReason where
  | exited (status : Int)
  | signalled (signal : String)
deriving DecidableEq

/-- The externally visible actions of the mangling task wrapper, in order. -/
inductive GuardAction where
  | mangleManifest
  | spawnChild
  | unmangleManifest
  | removeKillHook
deriving DecidableEq

/-- The state of one invocation of the mangling task wrapper: the actions
performed so far, whether the once-registered child exit handler is still
attached, and whether the parent-exit kill hook is attached. -/
structure GuardState where
  trace : List GuardAction
  exitHandlerAttached : Bool
  killHookAttached : Bool
deriving DecidableEq

/-- Embedding of `runYarnWithPackageJsonMangling` (lines 50-67): mangle the
manifest, spawn the child, register the parent-exit kill hook
(`process.on('exit', killOnExit)`), and register a `once` handler for the
child's exit event. -/
def runYarnWithPackageJsonMangling : GuardState :=
  { trace := [GuardAction.mangleManifest, GuardAction.spawnChild],
    exitHandlerAttached := true,
    killHookAttached := true }

/-- Embedding of one firing of the child's exit event (lines 61-64): Node's
`once` runs the handler only while it is attached and detaches it; the
handler ignores the exit reason, unmangles the manifest, and removes the
parent-exit kill hook. -/
def childExitStep (s : GuardState) (_reason : ExitReason) : GuardState :=
  if s.exitHandlerAttached then
    { trace := s.trace ++ [GuardAction.unmangleManifest, GuardAction.removeKillHook],
      exitHandlerAttached := false,
      killHookAttached := false }
  else
    s

/-- The guard state after the wrapper has run and the child's exit event has
fired once per element of `reasons`. -/
def runGuard (reasons : List ExitReason) : GuardState :=
  reasons.foldl childExitStep runYarnWithPackageJsonMangling

/-- C8: in every run of the mangling task wrapper whose child exits (for any
reason, any number of reported exit events), the manifest is mangled exactly
once before the child is spawned, unmangled exactly once afterwards, and the
parent-exit kill hook is removed: the action trace is precisely mangle,
spawn, unmangle, remove-hook. -/
theorem c8_mangle_once_unmangle_once (reasons : List ExitReason)
    (h : reasons ≠ []) :
    (runGuard reasons).trace =
      [GuardAction.mangleManifest, GuardAction.spawnChild,
       GuardAction.unmangleManifest, GuardAction.removeKillHook] ∧
    (runGuard reasons).killHookAttached = false := by
  cases reasons with
  | nil => exact absurd rfl h
  | cons r rest =>
    rw [runGuard, List.foldl_cons]
    have hrest : ∀ (l : List ExitReason) (s : GuardState),
        s.exitHandlerAttached = false → l.foldl childExitStep s = s := by
      intro l
      induction l with
      | nil =>
        intro s _
        rfl
      | cons x xs ih =>
        intro s hs
        rw [List.foldl_cons, childExitStep, if_neg (by simp [hs])]
        exact ih s hs
    rw [show childExitStep runYarnWithPackageJsonMangling r =
        { trace := [GuardAction.mangleManifest, GuardAction.spawnChild,
            GuardAction.unmangleManifest, GuardAction.removeKillHook],
          exitHandlerAttached := false,
          killHookAttached := false } from rfl]
    rw [hrest rest _ rfl]
    exact ⟨rfl, rfl⟩

theorem c8_witness :
    (runGuard [ExitReason.signalled "SIGTERM"]).trace =
      [GuardAction.mangleManifest, GuardAction.spawnChild,
       GuardAction.unmangleManifest, GuardAction.removeKillHook] ∧
    (runGuard [ExitReason.signalled "SIGTERM"]).killHookAttached = false :=
  c8_mangle_once_unmangle_once [ExitReason.signalled "SIGTERM"] (by decide)

/-! ### The parallel option validator -/

/-- A JavaScript number as produced by coercing a CLI string with `+n`: a
finite value (modelled as an exact rational) or one of the non-finite
doubles NaN, `Infinity` and `-Infinity` (`+"Infinity"` is `Infinity`,
`+"foo"` is NaN). -/
inductive JsNumber where
  | nan
  | posInf
  | negInf
  | finite (q : ℚ)
deriving DecidableEq

/-- Rounding of a finite JavaScript number by `Math.round`: round half
toward positive infinity. -/
def jsRound (q : ℚ) : ℤ := ⌊q + 1 / 2⌋

/-- The comparison `+n <= 0` of JavaScript: false for NaN (every comparison
with NaN is false), false for `Infinity`, true for `-Infinity`, and the
rational comparison for finite values. -/
def jsLe0 : JsNumber → Bool
  | JsNumber.nan => false
  | JsNumber.posInf => false
  | JsNumber.negInf => true
  | JsNumber.finite q => decide (q ≤ 0)

/-- JavaScript `Math.round`: the identity on NaN and the infinities, and
half-up rounding on finite values. -/
def jsMathRound : JsNumber → JsNumber
  | JsNumber.nan => JsNumber.nan
  | JsNumber.posInf => JsNumber.posInf
  | JsNumber.negInf => JsNumber.negInf
  | JsNumber.finite q => JsNumber.finite ((jsRound q : ℚ))

/-- JavaScript strict equality `===` on numbers: NaN is equal to nothing,
not even itself; each infinity is equal to itself; finite values compare as
rationals. -/
def jsStrictEq : JsNumber → JsNumber → Bool
  | JsNumber.nan, _ => false
  | _, JsNumber.nan => false
  | JsNumber.posInf, JsNumber.posInf => true
  | JsNumber.negInf, JsNumber.negInf => true
  | JsNumber.finite a, JsNumber.finite b => decide (a = b)
  | _, _ => false

/-- Embedding of `optParallel` (bin/yerna, lines 22-29): exit the process
with code 1 (modelled as `none`) when the value is missing, when `+n <= 0`,
or when `Math.round(n) !== +n`; otherwise return the numeric value. -/
def optParallel (n : Option JsNumber) : Option JsNumber :=
  match n with
  | none => none
  | some q => if jsLe0 q || !(jsStrictEq (jsMathRound q) q) then none else some q

/-- The parallel option as configured on the commander option (line 43):
when the flag is omitted the default is 4 and `optParallel` never runs; when
a value is supplied it goes through `optParallel`. -/
def parallelOptionValue (supplied : Option (Option JsNumber)) : Option JsNumber :=
  match supplied with
  | none => some (JsNumber.finite 4)
  | some v => optParallel v

theorem jsRound_intCast (k : ℤ) : jsRound (k : ℚ) = k := by
  rw [jsRound, add_comm, Int.floor_add_int]
  norm_num

/-- C9, counterexample.  The claim says validation accepts a supplied value
only if it denotes a positive integer, but the value `Infinity` (typable as
`-p Infinity`) passes both checks — `Infinity <= 0` is false and
`Math.round(Infinity) !== Infinity` is false — so `optParallel` returns it
even though it is no positive integer. -/
theorem c9_counterexample_infinity_accepted :
    optParallel (some JsNumber.posInf) = some JsNumber.posInf ∧
    ¬ ∃ k : ℤ, 0 < k ∧ JsNumber.posInf = JsNumber.finite (k : ℚ) := by
  constructor
  · rfl
  · rintro ⟨k, _, h⟩
    nomatch h

/-- C9, amended.  The parallel option accepts a supplied value exactly when
it is a positive integer or positive infinity, in which case that value is
returned; null, NaN, negative infinity, zero, and every negative or
non-integer finite value are fatal (the process exits with code 1, modelled
by `none`); an omitted option defaults to 4. -/
theorem c9_amended_parallel_validation :
    (∀ v : JsNumber, optParallel (some v) = some v ↔
      (v = JsNumber.posInf ∨ ∃ k : ℤ, 0 < k ∧ v = JsNumber.finite (k : ℚ))) ∧
    (∀ v : JsNumber, optParallel (some v) = some v ∨ optParallel (some v) = none) ∧
    optParallel none = none ∧
    parallelOptionValue none = some (JsNumber.finite 4) := by
  refine ⟨?_, ?_, rfl, rfl⟩
  · intro v
    cases v with
    | nan =>
      constructor
      · intro h
        nomatch h
      · rintro (h | ⟨k, _, h⟩) <;> nomatch h
    | posInf =>
      constructor
      · intro _
        exact Or.inl rfl
      · intro _
        rfl
    | negInf =>
      constructor
      · intro h
        nomatch h
      · rintro (h | ⟨k, _, h⟩) <;> nomatch h
    | finite q =>
      rw [show optParallel (some (JsNumber.finite q))
          = (if decide (q ≤ 0) || !(decide ((jsRound q : ℚ) = q)) then none
             else some (JsNumber.finite q)) from rfl]
      by_cases hle : q ≤ 0
      · rw [if_pos (by simp [hle])]
        constructor
        · intro h
          nomatch h
        · rintro (h | ⟨k, hk, h⟩)
          · nomatch h
          · exfalso
            injection h with hq
            rw [hq] at hle
            have hkq : (0 : ℚ) < (k : ℚ) := by exact_mod_cast hk
            exact absurd hle (not_le.mpr hkq)
      · by_cases hr : (jsRound q : ℚ) = q
        · rw [if_neg (by simp [hle, hr])]
          constructor
          · intro _
            right
            refine ⟨jsRound q, ?_, ?_⟩
            · have h0 : (0 : ℚ) < q := lt_of_not_le hle
              rw [← hr] at h0
              exact_mod_cast h0
            · rw [hr]
          · intro _
            rfl
        · rw [if_pos (by simp [hr])]
          constructor
          · intro h
            nomatch h
          · rintro (h | ⟨k, _, h⟩)
            · nomatch h
            · exfalso
              injection h with hq
              exact hr (by rw [hq, jsRound_intCast k])
  · intro v
    rw [optParallel]
    by_cases hc : (jsLe0 v || !(jsStrictEq (jsMathRound v) v)) = true
    · rw [if_pos hc]
      exact Or.inr rfl
    · rw [if_neg hc]
      exact Or.inl rfl

/-! ### Packages, the dependency graph, and the transitive traversal -/

/-- A package as loaded from the monorepo: its unique name, the names of the
monorepo-local packages it depends on, the reverse edges, and the script
names its manifest declares. -/
structure Package where
  name : String
  localDependencies : List String
  localDependents : List String
  scripts : List String
deriving DecidableEq

/-- Reading `allPackages[packageName]`: the package map keyed by name,
embedded as a list with first-match lookup. -/
def getPkg (g : List Package) (n : String) : Option Package :=
  g.find? (fun p => p.name == n)

/-- The packages `currentPackage[typeKey].map(name => allPackages[name])`
enqueued by the traversal, one per resolvable name. -/
def neighborPackages (g : List Package) (tk : Package → List String) (p : Package) :
    List Package :=
  (tk p).filterMap (getPkg g)

/-- The number of package names of the graph not yet selected; the primary
termination measure of the traversal loop. -/
def countMissing (g : List Package) (selected : List String) : Nat :=
  (g.map Package.name).countP (fun n => !(selected.contains n))

theorem getPkg_mem {g : List Package} {n : String} {p : Package}
    (h : getPkg g n = some p) : p ∈ g :=
  List.mem_of_find?_eq_some h

theorem getPkg_name {g : List Package} {n : String} {p : Package}
    (h : getPkg g n = some p) : p.name = n := by
  have hp := List.find?_some h
  simpa using hp

theorem neighborPackages_mem {g : List Package} {tk : Package → List String}
    {p q : Package} (h : q ∈ neighborPackages g tk p) : q ∈ g := by
  rcases List.mem_filterMap.mp h with ⟨n, _, hn⟩
  exact getPkg_mem hn

theorem countP_lt_of_mem {α : Type} {l : List α} {p q : α → Bool} (x : α)
    (himp : ∀ a ∈ l, q a = true → p a = true)
    (hx : x ∈ l) (hpx : p x = true) (hqx : q x = false) :
    l.countP q < l.countP p := by
  induction l with
  | nil => cases hx
  | cons a t ih =>
    rw [List.countP_cons, List.countP_cons]
    rcases List.mem_cons.mp hx with rfl | hxt
    · have hmono : t.countP q ≤ t.countP p :=
        List.countP_mono_left (fun b hb hqb => himp b (List.mem_cons_of_mem _ hb) hqb)
      rw [if_pos hpx, if_neg (by simp [hqx])]
      omega
    · have hlt := ih (fun b hb hqb => himp b (List.mem_cons_of_mem _ hb) hqb) hxt
      by_cases hqa : q a = true
      · rw [if_pos hqa, if_pos (himp a (List.mem_cons_self _ _) hqa)]
        omega
      · rw [if_neg hqa]
        by_cases hpa : p a = true
        · rw [if_pos hpa]
          omega
        · rw [if_neg hpa]
          omega

theorem countMissing_lt {g : List Package} {selected : List String} {c : String}
    (hc : c ∈ g.map Package.name) (hns : selected.contains c = false) :
    countMissing g (selected ++ [c]) < countMissing g selected := by
  apply countP_lt_of_mem c ?_ hc ?_ ?_
  · intro a _ hqa
    simp only [Bool.not_eq_eq_eq_not, Bool.not_true] at hqa ⊢
    have hm : a ∉ selected ++ [c] := by simpa using hqa
    have hl : a ∉ selected := fun hx => hm (List.mem_append.mpr (Or.inl hx))
    simpa using hl
  · rw [hns]
    rfl
  · simp

/-- Embedding of the loop of `findTransitiveDependentsOrDependencies`
(bin/yerna, lines 122-133): repeatedly dequeue a package; if its name is not
yet in `selectedPackageNames`, push the name and enqueue every package named
by the dequeued package's `typeKey` field.  The loop terminates because each
iteration either selects a graph name that was never selected before or
shortens the queue; the invariant that every queued package belongs to the
graph is carried as an argument. -/
def bfsAux (g : List Package) (tk : Package → List String) :
    (selected : List String) → (queue : List Package) →
    (∀ p ∈ queue, p ∈ g) → List String
  | selected, [], _ => selected
  | selected, cur :: rest, hq =>
    if h : selected.contains cur.name then
      bfsAux g tk selected rest (fun p hp => hq p (List.mem_cons_of_mem cur hp))
    else
      bfsAux g tk (selected ++ [cur.name]) (rest ++ neighborPackages g tk cur)
        (fun p hp =>
          match List.mem_append.mp hp with
          | Or.inl h1 => hq p (List.mem_cons_of_mem cur h1)
          | Or.inr h2 => neighborPackages_mem h2)
termination_by selected queue _ => (countMissing g selected, queue.length)
decreasing_by
  · apply Prod.Lex.right
    simp
  · apply Prod.Lex.left
    apply countMissing_lt
    · exact List.mem_map.mpr ⟨cur, hq cur (List.mem_cons_self cur rest), rfl⟩
    · simpa using h

/-- Embedding of `findTransitiveDependentsOrDependencies` (lines 122-133),
name phase: run the loop from a queue holding the root's package (when the
root resolves) with no name selected yet. -/
def bfsFrom (g : List Package) (tk : Package → List String) (root : String) :
    List String :=
  match h : getPkg g root with
  | none => []
  | some p =>
    bfsAux g tk [] [p] (by
      intro q hq
      rw [List.mem_singleton] at hq
      rw [hq]
      exact getPkg_mem h)

/-- The return value of `findTransitiveDependentsOrDependencies`: the
selected names mapped back to their packages
(`selectedPackageNames.map(name => allPackages[name])`). -/
def findTransitiveDependentsOrDependencies (g : List Package) (root : String)
    (tk : Package → List String) : List Package :=
  (bfsFrom g tk root).filterMap (getPkg g)

/-- Reachability in the package map along `tk` edges: a root that resolves
reaches itself, and anything reached reaches every resolvable package that
the `tk` field of its package names. -/
inductive Reaches (g : List Package) (tk : Package → List String) (root : String) :
    String → Prop
  | refl (p : Package) (h : getPkg g root = some p) : Reaches g tk root root
  | step {m k : String} (hm : Reaches g tk root m) (p : Package)
      (hp : getPkg g m = some p) (hk : k ∈ tk p) (q : Package)
      (hq : getPkg g k = some q) : Reaches g tk root k

theorem reaches_resolves {g : List Package} {tk : Package → List String}
    {root n : String} (h : Reaches g tk root n) : ∃ q, getPkg g n = some q := by
  induction h with
  | refl p hp => exact ⟨p, hp⟩
  | step hm p hp hk q hq ih => exact ⟨q, hq⟩

theorem bfsAux_mono (g : List Package) (tk : Package → List String) :
    ∀ selected queue hq {n}, n ∈ selected → n ∈ bfsAux g tk selected queue hq := by
  intro selected queue hq
  induction selected, queue, hq using bfsAux.induct g tk with
  | case1 selected hq hq2 =>
    intro n hn
    rw [bfsAux]
    exact hn
  | case2 selected cur rest hq h hq2 ih =>
    intro n hn
    rw [bfsAux, dif_pos h]
    exact ih hn
  | case3 selected cur rest hq h hq2 ih =>
    intro n hn
    rw [bfsAux, dif_neg h]
    exact ih (List.mem_append.mpr (Or.inl hn))

theorem bfsAux_queue_mem (g : List Package) (tk : Package → List String) :
    ∀ selected queue hq, ∀ p ∈ queue, p.name ∈ bfsAux g tk selected queue hq := by
  intro selected queue hq
  induction selected, queue, hq using bfsAux.induct g tk with
  | case1 selected hq hq2 =>
    intro p hp
    cases hp
  | case2 selected cur rest hq h hq2 ih =>
    intro p hp
    rw [bfsAux, dif_pos h]
    rcases List.mem_cons.mp hp with rfl | hrest
    · exact bfsAux_mono g tk selected rest _ (by simpa using h)
    · exact ih p hrest
  | case3 selected cur rest hq h hq2 ih =>
    intro p hp
    rw [bfsAux, dif_neg h]
    rcases List.mem_cons.mp hp with rfl | hrest
    · exact bfsAux_mono g tk _ _ _
        (List.mem_append.mpr (Or.inr (List.mem_singleton.mpr rfl)))
    · exact ih p (List.mem_append.mpr (Or.inl hrest))

theorem bfsAux_nodup (g : List Package) (tk : Package → List String) :
    ∀ selected queue hq, selected.Nodup → (bfsAux g tk selected queue hq).Nodup := by
  intro selected queue hq
  induction selected, queue, hq using bfsAux.induct g tk with
  | case1 selected hq hq2 =>
    intro hsel
    rw [bfsAux]
    exact hsel
  | case2 selected cur rest hq h hq2 ih =>
    intro hsel
    rw [bfsAux, dif_pos h]
    exact ih hsel
  | case3 selected cur rest hq h hq2 ih =>
    intro hsel
    rw [bfsAux, dif_neg h]
    refine ih ?_
    have hnm : cur.name ∉ selected := by simpa using h
    simp [List.nodup_append, hsel, hnm]

theorem bfsAux_sound (g : List Package) (tk : Package → List String) (root : String) :
    ∀ selected queue hq,
    (∀ n ∈ selected, Reaches g tk root n) →
    (∀ p ∈ queue, Reaches g tk root p.name ∧ getPkg g p.name = some p) →
    ∀ n ∈ bfsAux g tk selected queue hq, Reaches g tk root n := by
  intro selected queue hq
  induction selected, queue, hq using bfsAux.induct g tk with
  | case1 selected hq hq2 =>
    intro hsel _ n hn
    rw [bfsAux] at hn
    exact hsel n hn
  | case2 selected cur rest hq h hq2 ih =>
    intro hsel hqr n hn
    rw [bfsAux, dif_pos h] at hn
    exact ih hsel (fun p hp => hqr p (List.mem_cons_of_mem _ hp)) n hn
  | case3 selected cur rest hq h hq2 ih =>
    intro hsel hqr n hn
    rw [bfsAux, dif_neg h] at hn
    refine ih ?_ ?_ n hn
    · intro x hx
      rcases List.mem_append.mp hx with hx1 | hx2
      · exact hsel x hx1
      · rw [List.mem_singleton.mp hx2]
        exact (hqr cur (List.mem_cons_self _ _)).1
    · intro p hp
      rcases List.mem_append.mp hp with hp1 | hp2
      · exact hqr p (List.mem_cons_of_mem _ hp1)
      · rcases List.mem_filterMap.mp hp2 with ⟨k, hk, hkp⟩
        have hname := getPkg_name hkp
        constructor
        · rw [hname]
          exact Reaches.step (hqr cur (List.mem_cons_self _ _)).1 cur
            (hqr cur (List.mem_cons_self _ _)).2 hk p hkp
        · rw [hname]
          exact hkp

theorem bfsAux_closed (g : List Package) (tk : Package → List String) :
    ∀ selected queue hq,
    (∀ p ∈ queue, getPkg g p.name = some p) →
    ∀ n, n ∈ bfsAux g tk selected queue hq → n ∉ selected →
    ∀ p, getPkg g n = some p → ∀ k ∈ tk p, ∀ q, getPkg g k = some q →
    k ∈ bfsAux g tk selected queue hq := by
  intro selected queue hq
  induction selected, queue, hq using bfsAux.induct g tk with
  | case1 selected hq hq2 =>
    intro _ n hn hns p hp k hk q hqk
    rw [bfsAux] at hn
    exact absurd hn hns
  | case2 selected cur rest hq h hq2 ih =>
    intro hqinv n hn hns p hp k hk q hqk
    rw [bfsAux, dif_pos h] at hn ⊢
    exact ih (fun x hx => hqinv x (List.mem_cons_of_mem _ hx)) n hn hns p hp k hk q hqk
  | case3 selected cur rest hq h hq2 ih =>
    intro hqinv n hn hns p hp k hk q hqk
    rw [bfsAux, dif_neg h] at hn ⊢
    have hqinv' : ∀ x ∈ rest ++ neighborPackages g tk cur, getPkg g x.name = some x := by
      intro x hx
      rcases List.mem_append.mp hx with h1 | h2
      · exact hqinv x (List.mem_cons_of_mem _ h1)
      · rcases List.mem_filterMap.mp h2 with ⟨j, hj, hjp⟩
        rw [getPkg_name hjp]
        exact hjp
    by_cases hcur : n = cur.name
    · have hc : getPkg g cur.name = some cur := hqinv cur (List.mem_cons_self _ _)
      have hpc : p = cur := by
        rw [hcur, hc] at hp
        exact (Option.some.inj hp).symm
      have hqm : q ∈ neighborPackages g tk cur :=
        List.mem_filterMap.mpr ⟨k, hpc ▸ hk, hqk⟩
      have hout := bfsAux_queue_mem g tk (selected ++ [cur.name])
        (rest ++ neighborPackages g tk cur)
        (fun x hx => match List.mem_append.mp hx with
          | Or.inl h1 => hq x (List.mem_cons_of_mem cur h1)
          | Or.inr h2 => neighborPackages_mem h2)
        q (List.mem_append.mpr (Or.inr hqm))
      rw [getPkg_name hqk] at hout
      exact hout
    · refine ih hqinv' n hn ?_ p hp k hk q hqk
      intro hx
      rcases List.mem_append.mp hx with h1 | h2
      · exact hns h1
      · exact hcur (List.mem_singleton.mp h2)

theorem bfsFrom_eq {g : List Package} {tk : Package → List String} {root : String}
    {rp : Package} (hroot : getPkg g root = some rp) :
    bfsFrom g tk root = bfsAux g tk [] [rp] (fun q hq => by
      rw [List.mem_singleton] at hq
      rw [hq]
      exact getPkg_mem hroot) := by
  rw [bfsFrom]
  split
  · rename_i hnone
    rw [hroot] at hnone
    cases hnone
  · rename_i p hp
    rw [hroot] at hp
    cases hp
    rfl

theorem bfsFrom_nodup {g : List Package} {tk : Package → List String} {root : String}
    {rp : Package} (hroot : getPkg g root = some rp) :
    (bfsFrom g tk root).Nodup := by
  rw [bfsFrom_eq hroot]
  exact bfsAux_nodup g tk [] [rp] _ List.nodup_nil

theorem bfsFrom_sound {g : List Package} {tk : Package → List String} {root : String}
    {rp : Package} (hroot : getPkg g root = some rp) :
    ∀ n ∈ bfsFrom g tk root, Reaches g tk root n := by
  rw [bfsFrom_eq hroot]
  refine bfsAux_sound g tk root [] [rp] _ (fun n hn => absurd hn (List.not_mem_nil n)) ?_
  intro x hx
  rw [List.mem_singleton] at hx
  subst hx
  rw [getPkg_name hroot]
  exact ⟨Reaches.refl _ hroot, hroot⟩

theorem bfsFrom_complete {g : List Package} {tk : Package → List String} {root : String}
    {rp : Package} (hroot : getPkg g root = some rp) :
    ∀ n, Reaches g tk root n → n ∈ bfsFrom g tk root := by
  rw [bfsFrom_eq hroot]
  intro n hr
  induction hr with
  | refl p hp =>
    have hm := bfsAux_queue_mem g tk [] [rp]
      (fun q hq => by
        rw [List.mem_singleton] at hq
        rw [hq]
        exact getPkg_mem hroot)
      rp (List.mem_singleton.mpr rfl)
    rw [getPkg_name hroot] at hm
    exact hm
  | step hm p hp hk q hq ih =>
    refine bfsAux_closed g tk [] [rp] _ ?_ _ ih (List.not_mem_nil _) p hp _ hk q hq
    intro x hx
    rw [List.mem_singleton] at hx
    subst hx
    rw [getPkg_name hroot]
    exact hroot

theorem names_filterMap_getPkg (g : List Package) (ns : List String)
    (h : ∀ n ∈ ns, ∃ q, getPkg g n = some q) :
    (ns.filterMap (getPkg g)).map Package.name = ns := by
  induction ns with
  | nil => rfl
  | cons n rest ih =>
    rw [List.filterMap_cons]
    rcases h n (List.mem_cons_self _ _) with ⟨q, hq⟩
    rw [hq, List.map_cons, getPkg_name hq,
      ih (fun x hx => h x (List.mem_cons_of_mem _ hx))]

theorem findTransitive_names {g : List Package} {tk : Package → List String}
    {root : String} {rp : Package} (hroot : getPkg g root = some rp) :
    (findTransitiveDependentsOrDependencies g root tk).map Package.name
      = bfsFrom g tk root := by
  rw [findTransitiveDependentsOrDependencies]
  apply names_filterMap_getPkg
  intro n hn
  exact reaches_resolves (bfsFrom_sound hroot n hn)

/-! ### Claims about the transitive traversal -/

/-- C10: for every package graph, including cyclic ones, and every root
present in the map, the traversal terminates (it is a total function of the
embedding, defined by well-founded recursion on the pair of the number of
unselected graph names and the queue length) and returns each package
reachable from the root along `typeKey` edges exactly once: the returned
names are pairwise distinct and are exactly the reachable names. -/
theorem c10_traversal_terminates_each_reachable_once (g : List Package)
    (tk : Package → List String) (root : String) (rp : Package)
    (hroot : getPkg g root = some rp) :
    ((findTransitiveDependentsOrDependencies g root tk).map Package.name).Nodup ∧
    ∀ n, (n ∈ (findTransitiveDependentsOrDependencies g root tk).map Package.name ↔
      Reaches g tk root n) := by
  rw [findTransitive_names hroot]
  refine ⟨bfsFrom_nodup hroot, ?_⟩
  intro n
  constructor
  · exact bfsFrom_sound hroot n
  · exact bfsFrom_complete hroot n

theorem c10_witness :
    ((findTransitiveDependentsOrDependencies
        [⟨"a", [], ["b"], []⟩, ⟨"b", [], ["a"], []⟩] "a"
        Package.localDependents).map Package.name).Nodup ∧
    "b" ∈ (findTransitiveDependentsOrDependencies
        [⟨"a", [], ["b"], []⟩, ⟨"b", [], ["a"], []⟩] "a"
        Package.localDependents).map Package.name := by
  have h := c10_traversal_terminates_each_reachable_once
    [⟨"a", [], ["b"], []⟩, ⟨"b", [], ["a"], []⟩] Package.localDependents "a"
    ⟨"a", [], ["b"], []⟩ rfl
  refine ⟨h.1, (h.2 "b").mpr ?_⟩
  exact Reaches.step (Reaches.refl ⟨"a", [], ["b"], []⟩ rfl) ⟨"a", [], ["b"], []⟩ rfl
    (by decide) ⟨"b", [], ["a"], []⟩ rfl

/-! ### The selection engine -/

/-- The global commander flags consumed by selection: repeatable include and
exclude regexes (each embedded as the predicate `name => regex.test(name)`),
and the `--dependents` and `--dependencies` booleans. -/
structure SelectionCriteria where
  includePatterns : List (String → Bool)
  excludePatterns : List (String → Bool)
  dependents : Bool
  dependencies : Bool

/-- Embedding of `applyIncludeExclude` (bin/yerna, lines 149-154): the
package passes when its name matches some include pattern (or none were
given) and, unless no exclude pattern was given, matches no exclude
pattern. -/
def applyIncludeExclude (c : SelectionCriteria) (p : Package) : Bool :=
  (c.includePatterns.isEmpty || c.includePatterns.any (fun rt => rt p.name)) &&
  (c.excludePatterns.isEmpty || !(c.excludePatterns.any (fun rt => rt p.name)))

/-- Lodash `_.uniqBy(packages, 'name')`: keep the first package of each
name, preserving order. -/
def uniqByName : List Package → List Package
  | [] => []
  | p :: rest => p :: uniqByName (rest.filter (fun q => !(q.name == p.name)))
termination_by l => l.length
decreasing_by
  simp only [List.length_cons]
  exact Nat.lt_succ_of_le (List.length_filter_le _ _)

/-- Embedding of `maybeIncludeDependentsAndDependencies` (lines 135-147):
start from the filter-selected package, append the transitive dependents of
every package so far when `--dependents` is set, then the transitive
dependencies of every package so far when `--dependencies` is set, and
dedupe by name. -/
def maybeIncludeDependentsAndDependencies (g : List Package) (c : SelectionCriteria)
    (pkg : Package) : List Package :=
  let packages := [pkg]
  let packages := if c.dependents then
      packages ++ packages.flatMap
        (fun p => findTransitiveDependentsOrDependencies g p.name Package.localDependents)
    else packages
  let packages := if c.dependencies then
      packages ++ packages.flatMap
        (fun p => findTransitiveDependentsOrDependencies g p.name Package.localDependencies)
    else packages
  uniqByName packages

/-- Embedding of the pipeline of `getSelectedPackages` (lines 156-174):
filter all packages by include/exclude, expand each selected package,
dedupe by name, sort by name, and apply the optional additional filter
last. -/
def getSelectedPackages (g : List Package) (c : SelectionCriteria)
    (additionalFilter : Package → Bool) : List Package :=
  (sortAsc (fun p q => strLe p.name q.name)
    (uniqByName ((g.filter (applyIncludeExclude c)).flatMap
      (maybeIncludeDependentsAndDependencies g c)))).filter additionalFilter

/-! ### Lemmas about the selection pipeline -/

theorem uniqByName_names_mem : ∀ (l : List Package) (n : String),
    n ∈ (uniqByName l).map Package.name ↔ n ∈ l.map Package.name := by
  intro l
  induction l using uniqByName.induct with
  | case1 =>
    intro n
    rw [uniqByName]
  | case2 p rest ih =>
    intro n
    rw [uniqByName, List.map_cons, List.map_cons]
    simp only [List.mem_cons]
    constructor
    · rintro (rfl | h)
      · exact Or.inl rfl
      · right
        rcases List.mem_map.mp ((ih n).mp h) with ⟨q, hq, rfl⟩
        exact List.mem_map.mpr ⟨q, (List.mem_filter.mp hq).1, rfl⟩
    · rintro (rfl | h)
      · exact Or.inl rfl
      · by_cases hn : n = p.name
        · exact Or.inl hn
        · right
          rw [ih n]
          rcases List.mem_map.mp h with ⟨q, hq, rfl⟩
          refine List.mem_map.mpr ⟨q, List.mem_filter.mpr ⟨hq, ?_⟩, rfl⟩
          simpa using hn

theorem uniqByName_names_nodup : ∀ l : List Package,
    ((uniqByName l).map Package.name).Nodup := by
  intro l
  induction l using uniqByName.induct with
  | case1 =>
    rw [uniqByName]
    exact List.nodup_nil
  | case2 p rest ih =>
    rw [uniqByName, List.map_cons]
    refine List.nodup_cons.mpr ⟨?_, ih⟩
    intro hmem
    rcases List.mem_map.mp ((uniqByName_names_mem _ _).mp hmem) with ⟨q, hq, hqn⟩
    rcases List.mem_filter.mp hq with ⟨_, hne⟩
    rw [hqn] at hne
    simp at hne

theorem getSelected_names_nodup (g : List Package) (c : SelectionCriteria)
    (f : Package → Bool) : ((getSelectedPackages g c f).map Package.name).Nodup := by
  rw [getSelectedPackages]
  have hbase : ((sortAsc (fun p q => strLe p.name q.name)
      (uniqByName ((g.filter (applyIncludeExclude c)).flatMap
        (maybeIncludeDependentsAndDependencies g c)))).map Package.name).Nodup := by
    refine ((sortAsc_perm _ _).map Package.name).nodup_iff.mpr ?_
    exact uniqByName_names_nodup _
  exact hbase.sublist ((List.filter_sublist _).map Package.name)

theorem getSelected_names_sorted (g : List Package) (c : SelectionCriteria)
    (f : Package → Bool) :
    List.Sorted (· ≤ ·) ((getSelectedPackages g c f).map Package.name) := by
  rw [getSelectedPackages]
  have hbase : ((sortAsc (fun p q => strLe p.name q.name)
      (uniqByName ((g.filter (applyIncludeExclude c)).flatMap
        (maybeIncludeDependentsAndDependencies g c)))).map Package.name).Pairwise
      (· ≤ ·) := by
    refine List.pairwise_map.mpr ?_
    have hp := sortAsc_pairwise (fun p q => strLe p.name q.name)
      (fun x y z h1 h2 => @strLe_trans x.name y.name z.name h1 h2)
      (fun x y => strLe_total x.name y.name)
      (uniqByName ((g.filter (applyIncludeExclude c)).flatMap
        (maybeIncludeDependentsAndDependencies g c)))
    exact hp.imp (fun hxy => (strLe_iff _ _).mp hxy)
  exact hbase.sublist ((List.filter_sublist _).map Package.name)

/-! ### Claims about the selection engine -/

/-- C5: the include/exclude filter accepts a package exactly when the
include list is empty or some include pattern matches its name, and no
exclude pattern matches its name. -/
theorem c5_include_exclude_filter (c : SelectionCriteria) (p : Package) :
    applyIncludeExclude c p = true ↔
      ((c.includePatterns = [] ∨ ∃ rt ∈ c.includePatterns, rt p.name = true) ∧
       ∀ rt ∈ c.excludePatterns, rt p.name = false) := by
  rw [applyIncludeExclude, Bool.and_eq_true]
  constructor
  · rintro ⟨h1, h2⟩
    constructor
    · rcases Bool.or_eq_true_iff.mp h1 with he | ha
      · exact Or.inl (List.isEmpty_iff.mp he)
      · exact Or.inr (List.any_eq_true.mp ha)
    · intro rt hrt
      rcases Bool.or_eq_true_iff.mp h2 with he | hn
      · rw [List.isEmpty_iff.mp he] at hrt
        cases hrt
      · rw [Bool.not_eq_true'] at hn
        have := List.any_eq_false.mp hn rt hrt
        simpa using this
  · rintro ⟨h1, h2⟩
    constructor
    · rcases h1 with he | ⟨rt, hrt, hv⟩
      · exact Bool.or_eq_true_iff.mpr (Or.inl (List.isEmpty_iff.mpr he))
      · exact Bool.or_eq_true_iff.mpr (Or.inr (List.any_eq_true.mpr ⟨rt, hrt, hv⟩))
    · refine Bool.or_eq_true_iff.mpr (Or.inr ?_)
      rw [Bool.not_eq_true']
      rw [List.any_eq_false]
      intro rt hrt
      simp [h2 rt hrt]

/-- C6: every selection result lists each package name at most once, is
sorted ascending by name, and equals the result of the same selection with
no additional predicate filtered by the additional predicate afterwards: the
predicate is applied last, after filtering, expansion, deduplication and
sorting, so it also drops packages that entered through expansion. -/
theorem c6_selection_dedup_sorted_filter_last (g : List Package)
    (c : SelectionCriteria) (additionalFilter : Package → Bool) :
    ((getSelectedPackages g c additionalFilter).map Package.name).Nodup ∧
    List.Sorted (· ≤ ·) ((getSelectedPackages g c additionalFilter).map Package.name) ∧
    getSelectedPackages g c additionalFilter
      = (getSelectedPackages g c (fun _ => true)).filter additionalFilter := by
  refine ⟨getSelected_names_nodup g c additionalFilter,
    getSelected_names_sorted g c additionalFilter, ?_⟩
  rw [getSelectedPackages, getSelectedPackages, List.filter_true]

theorem maybeInclude_names_mem (g : List Package) (c : SelectionCriteria) (F : Package)
    (hdep : c.dependents = true) {n : String}
    (hn : n ∈ (findTransitiveDependentsOrDependencies g F.name
      Package.localDependents).map Package.name) :
    n ∈ (maybeIncludeDependentsAndDependencies g c F).map Package.name := by
  rw [maybeIncludeDependentsAndDependencies]
  simp only [hdep, if_true]
  rw [uniqByName_names_mem]
  have hstep1 : n ∈ (([F] ++ [F].flatMap
      (fun p => findTransitiveDependentsOrDependencies g p.name
        Package.localDependents)).map Package.name) := by
    rw [List.map_append, List.mem_append]
    right
    simpa using hn
  by_cases hd2 : c.dependencies = true
  · rw [if_pos hd2, List.map_append, List.mem_append]
    exact Or.inl hstep1
  · rw [if_neg hd2]
    exact hstep1

/-- C4: with the `--dependents` flag set, for every package F of the graph
accepted by the include/exclude filter, every package transitively reachable
from F along `localDependents` edges is selected — by name, exactly once
(the selection's names are pairwise distinct) — regardless of how many paths
reach it; the statement quantifies over all criteria, in particular ones
whose exclude patterns match the reached package, so expansion is not
re-filtered. -/
theorem c4_expand_dependents_closure (g : List Package) (c : SelectionCriteria)
    (F : Package) (hF : F ∈ g) (hFsel : applyIncludeExclude c F = true)
    (hdep : c.dependents = true) :
    (∀ n, Reaches g Package.localDependents F.name n →
      n ∈ (getSelectedPackages g c (fun _ => true)).map Package.name) ∧
    ((getSelectedPackages g c (fun _ => true)).map Package.name).Nodup := by
  refine ⟨?_, getSelected_names_nodup g c _⟩
  intro n hr
  have hroot : ∃ rp, getPkg g F.name = some rp := by
    cases hg : getPkg g F.name with
    | some rp => exact ⟨rp, rfl⟩
    | none =>
      have := List.find?_eq_none.mp hg F hF
      simp at this
  rcases hroot with ⟨rp, hrp⟩
  have hmem1 : n ∈ (findTransitiveDependentsOrDependencies g F.name
      Package.localDependents).map Package.name := by
    rw [findTransitive_names hrp]
    exact bfsFrom_complete hrp n hr
  have hmem2 := maybeInclude_names_mem g c F hdep hmem1
  rw [getSelectedPackages, List.filter_true]
  rw [((sortAsc_perm (fun p q => strLe p.name q.name) _).map Package.name).mem_iff]
  rw [uniqByName_names_mem]
  rcases List.mem_map.mp hmem2 with ⟨q, hq, rfl⟩
  exact List.mem_map.mpr
    ⟨q, List.mem_flatMap.mpr ⟨F, List.mem_filter.mpr ⟨hF, hFsel⟩, hq⟩, rfl⟩

theorem c4_witness :
    "b" ∈ (getSelectedPackages [⟨"a", [], ["b"], []⟩, ⟨"b", ["a"], [], []⟩]
        ⟨[fun n => n == "a"], [fun n => n == "b"], true, false⟩
        (fun _ => true)).map Package.name :=
  (c4_expand_dependents_closure
    [⟨"a", [], ["b"], []⟩, ⟨"b", ["a"], [], []⟩]
    ⟨[fun n => n == "a"], [fun n => n == "b"], true, false⟩
    ⟨"a", [], ["b"], []⟩ (by decide) (by decide) rfl).1 "b"
    (Reaches.step (Reaches.refl ⟨"a", [], ["b"], []⟩ rfl) ⟨"a", [], ["b"], []⟩ rfl
      (by decide) ⟨"b", ["a"], [], []⟩ rfl)
